import Mathlib

/-!
# Verification of the Arrow Flight bridge service (`arrow_bridge.py`)

Shallow embedding of the bridge's wire codec and per-connection session
logic.  Bytes are modelled as natural numbers (`< 256` on real wire data),
byte strings as `List Nat`.

Python-specific behaviours are mirrored faithfully:
* a slice `data[a:b]` clamps to the available bytes (it never fails);
* `struct.unpack` fails when its slice is shorter than the format width;
* indexing `data[offset]` fails when `offset` is out of range;
* `decode('utf-8')` (strict) fails on invalid UTF-8, while
  `decode('utf-8', errors='replace')` never fails — VARCHAR values are
  therefore modelled as their raw payload bytes;
* a DOUBLE value is modelled as the 64-bit big-endian bit pattern read
  from the wire (IEEE-754 bytes-to-float interpretation is injective on
  bit patterns, so this preserves round-trip structure).

External library calls that are not part of this repository are
parameters of the model: `json.loads` is an arbitrary function
`List Nat → Option (List String)` (from schema bytes to the list of
column type tags), and the Arrow Flight client's `do_put` / `write_batch`
/ `close` are a failure oracle `Fw`.
-/

namespace ArrowBridge

/-- Big-endian interpretation of a byte list, as in `struct.unpack`
with formats `!I`, `!H`, `!i`, `!q` (before sign adjustment). -/
def beNat (bs : List Nat) : Nat := bs.foldl (fun a b => a * 256 + b) 0

/-- Big-endian encoding of `n` into exactly `k` bytes (truncating above
`256 ^ k`), as in `struct.pack`. -/
def beBytes : Nat → Nat → List Nat
  | 0, _ => []
  | k + 1, n => beBytes k (n / 256) ++ [n % 256]

/-- Two's-complement reading of a `w`-bit unsigned value, as in
`struct.unpack` with a signed format. -/
def toSigned (w : Nat) (n : Nat) : Int :=
  if n < 2 ^ (w - 1) then (n : Int) else (n : Int) - 2 ^ w

/-- Two's-complement encoding of an integer into `w` unsigned bits. -/
def toUnsigned (w : Nat) (i : Int) : Nat := (i % (2 : Int) ^ w).toNat

/-- A decoded cell value.  `float64` carries the 64 IEEE-754 bits read
off the wire; `str` carries the raw VARCHAR payload bytes (the Python
code turns them into text with `errors='replace'`, which never fails). -/
inductive Value where
  | int32 (n : Int)
  | int64 (n : Int)
  | float64 (bits : Nat)
  | str (bytes : List Nat)
  | null
deriving DecidableEq

/-- One typed value of `_parse_batch`'s per-column dispatch (lines
166-183): reads the type-specific bytes of a non-null cell at `offset`.
Returns the value and the new offset, or `none` where the Python code
raises.  Note the VARCHAR branch mirrors Python slicing: the content
slice is clamped to the available bytes but the offset still advances
by the declared length. -/
def parseValue (data : List Nat) (offset : Nat) (ty : String) : Option (Value × Nat) :=
  if ty = "INTEGER" then
    if ((data.drop offset).take 4).length = 4 then
      some (.int32 (toSigned 32 (beNat ((data.drop offset).take 4))), offset + 4)
    else none
  else if ty = "BIGINT" then
    if ((data.drop offset).take 8).length = 8 then
      some (.int64 (toSigned 64 (beNat ((data.drop offset).take 8))), offset + 8)
    else none
  else if ty = "DOUBLE" then
    if ((data.drop offset).take 8).length = 8 then
      some (.float64 (beNat ((data.drop offset).take 8)), offset + 8)
    else none
  else
    if ((data.drop offset).take 2).length = 2 then
      some (.str ((data.drop (offset + 2)).take (beNat ((data.drop offset).take 2))),
        offset + 2 + beNat ((data.drop offset).take 2))
    else none

/-- One cell of `_parse_batch` (lines 159-183): the 1-byte null
indicator, then the value bytes when the indicator is zero. -/
def parseCell (data : List Nat) (offset : Nat) (ty : String) : Option (Value × Nat) :=
  match data[offset]? with
  | none => none
  | some b => if b ≠ 0 then some (.null, offset + 1) else parseValue data (offset + 1) ty

/-- One row of `_parse_batch`: cells in schema order. -/
def parseRow (data : List Nat) : Nat → List String → Option (List Value × Nat)
  | offset, [] => some ([], offset)
  | offset, t :: ts =>
    match parseCell data offset t with
    | none => none
    | some (v, o1) =>
      match parseRow data o1 ts with
      | none => none
      | some (vs, o2) => some (v :: vs, o2)

/-- The row loop of `_parse_batch` (lines 157-183): `n` rows decoded
sequentially from `offset`. -/
def parseRows (data : List Nat) (tys : List String) : Nat → Nat → Option (List (List Value) × Nat)
  | offset, 0 => some ([], offset)
  | offset, n + 1 =>
    match parseRow data offset tys with
    | none => none
    | some (r, o1) =>
      match parseRows data tys o1 n with
      | none => none
      | some (rs, o2) => some (r :: rs, o2)

/-- `_parse_batch` (lines 136-197): 4-byte big-endian row count, then
the row loop, then the row-to-column transposition.  The Python code
appends each decoded value directly to its column's list `col_data[j]`
as rows are processed; after `k` rows, `col_data[j] = [r₁[j], …, r_k[j]]`,
which is exactly the transposition produced here. -/
def parse_batch (data : List Nat) (cols : List String) : Option (List (List Value)) :=
  if (data.take 4).length = 4 then
    match parseRows data cols 4 (beNat (data.take 4)) with
    | none => none
    | some (rows, _) =>
      some ((List.range cols.length).map fun j => rows.map fun r => r.getD j .null)
  else none

/-- `_recv_exact` (lines 126-134) over a chunked byte stream.  The
stream models the successive deliveries of `sock.recv`: each call takes
at most the requested number of bytes from the front chunk; an empty
chunk or an exhausted stream is a peer close (`recv` returning `b''`),
on which the Python code raises `ConnectionError` (`none` here).
Returns the bytes read and the unconsumed stream. -/
def recv_exact (stream : List (List Nat)) (n : Nat) : Option (List Nat × List (List Nat)) :=
  if n = 0 then some ([], stream)
  else
    match stream with
    | [] => none
    | c :: cs =>
      if hc : c = [] then none
      else
        match recv_exact (if c.drop n = [] then cs else c.drop n :: cs) (n - (c.take n).length) with
        | none => none
        | some (d, s) => some (c.take n ++ d, s)
termination_by n
decreasing_by
  have hpos : 0 < c.length := List.length_pos.mpr hc
  simp only [List.length_take]
  omega

/-- Whether a byte list is valid strict UTF-8, i.e. what Python's
strict `bytes.decode('utf-8')` accepts without raising: RFC 3629
sequences, no overlong forms, no surrogates, max U+10FFFF.  One
scalar value is consumed per recursion step. -/
def validUtf8 : List Nat → Bool
  | [] => true
  | b :: bs =>
    if b ≤ 0x7F then validUtf8 bs
    else if 0xC2 ≤ b ∧ b ≤ 0xDF then
      match bs with
      | b1 :: rest => decide (0x80 ≤ b1 ∧ b1 ≤ 0xBF) && validUtf8 rest
      | [] => false
    else if b = 0xE0 then
      match bs with
      | b1 :: b2 :: rest =>
        decide ((0xA0 ≤ b1 ∧ b1 ≤ 0xBF) ∧ (0x80 ≤ b2 ∧ b2 ≤ 0xBF)) && validUtf8 rest
      | _ => false
    else if (0xE1 ≤ b ∧ b ≤ 0xEC) ∨ b = 0xEE ∨ b = 0xEF then
      match bs with
      | b1 :: b2 :: rest =>
        decide ((0x80 ≤ b1 ∧ b1 ≤ 0xBF) ∧ (0x80 ≤ b2 ∧ b2 ≤ 0xBF)) && validUtf8 rest
      | _ => false
    else if b = 0xED then
      match bs with
      | b1 :: b2 :: rest =>
        decide ((0x80 ≤ b1 ∧ b1 ≤ 0x9F) ∧ (0x80 ≤ b2 ∧ b2 ≤ 0xBF)) && validUtf8 rest
      | _ => false
    else if b = 0xF0 then
      match bs with
      | b1 :: b2 :: b3 :: rest =>
        decide ((0x90 ≤ b1 ∧ b1 ≤ 0xBF) ∧ (0x80 ≤ b2 ∧ b2 ≤ 0xBF) ∧ (0x80 ≤ b3 ∧ b3 ≤ 0xBF)) &&
          validUtf8 rest
      | _ => false
    else if 0xF1 ≤ b ∧ b ≤ 0xF3 then
      match bs with
      | b1 :: b2 :: b3 :: rest =>
        decide ((0x80 ≤ b1 ∧ b1 ≤ 0xBF) ∧ (0x80 ≤ b2 ∧ b2 ≤ 0xBF) ∧ (0x80 ≤ b3 ∧ b3 ≤ 0xBF)) &&
          validUtf8 rest
      | _ => false
    else if b = 0xF4 then
      match bs with
      | b1 :: b2 :: b3 :: rest =>
        decide ((0x80 ≤ b1 ∧ b1 ≤ 0x8F) ∧ (0x80 ≤ b2 ∧ b2 ≤ 0xBF) ∧ (0x80 ≤ b3 ∧ b3 ≤ 0xBF)) &&
          validUtf8 rest
      | _ => false
    else false

/-- The Arrow logical type chosen for a column (lines 66-78). -/
inductive ArrowType where
  | int32
  | int64
  | float64
  | string
deriving DecidableEq

/-- The case-sensitive type-tag dispatch of `handle_client` lines 66-77:
tags other than the four known ones fall through to `pa.string()`. -/
def mapTag (t : String) : ArrowType :=
  if t = "INTEGER" then .int32
  else if t = "BIGINT" then .int64
  else if t = "VARCHAR" then .string
  else if t = "DOUBLE" then .float64
  else .string

/-- Failure oracle for the external Arrow Flight sink: whether
`FlightClient`/`do_put` raises, whether the `batchCount`-th
`write_batch` raises, and whether the first `writer.close()` raises. -/
structure Fw where
  openFails : Bool
  writeFails : Nat → Bool
  closeFails : Bool

/-- Observable outcome of one `handle_client` session: whether the
2-byte `b'OK'` ack was sent (line 112), whether `do_put` opened a
writer, how many times `writer.close()` was invoked (lines 111 and
119), the totals of line 113, and whether the client socket was closed
(line 124). -/
structure Outcome where
  ack : Bool
  opened : Bool
  closeAttempts : Nat
  totalRows : Nat
  batchCount : Nat
  socketClosed : Bool
deriving DecidableEq

/-- Result of the batch loop (lines 92-109): either the zero-length
sentinel was read (with the accumulated totals and the unread rest of
the stream), or some read/decode/write raised. -/
inductive LoopRes where
  | done (totalRows batchCount : Nat) (rest : List Nat)
  | err (totalRows batchCount : Nat)
deriving DecidableEq

/-- `num_rows` of the record batch built from the decoded column
arrays: the common length of the columns (0 for a zero-column batch). -/
def numRowsOf (arrays : List (List Value)) : Nat :=
  match arrays with
  | [] => 0
  | a :: _ => a.length

/-- One length-prefixed frame read off the delivered byte sequence:
`_recv_exact(sock, 4)` for the big-endian length, then `_recv_exact`
for the payload.  `none` where `_recv_exact` raises `ConnectionError`
(peer closed before enough bytes were delivered). -/
def readFrame (input : List Nat) : Option (List Nat × List Nat) :=
  if 4 ≤ input.length then
    if beNat (input.take 4) ≤ (input.drop 4).length then
      some ((input.drop 4).take (beNat (input.take 4)), (input.drop 4).drop (beNat (input.take 4)))
    else none
  else none

/-- The batch loop of `handle_client` (lines 92-109) over the delivered
byte sequence: read a 4-byte length, stop on the zero sentinel,
otherwise read the payload, `_parse_batch` it, `write_batch` it, and
accumulate `total_rows` and `batch_count`. -/
def batchLoop (fw : Fw) (cols : List String) (input : List Nat)
    (totalRows batchCount : Nat) : LoopRes :=
  if h4 : 4 ≤ input.length then
    if beNat (input.take 4) = 0 then .done totalRows batchCount (input.drop 4)
    else if hlen : beNat (input.take 4) ≤ (input.drop 4).length then
      match parse_batch ((input.drop 4).take (beNat (input.take 4))) cols with
      | none => .err totalRows batchCount
      | some arrays =>
        if fw.writeFails batchCount then .err totalRows batchCount
        else
          batchLoop fw cols ((input.drop 4).drop (beNat (input.take 4)))
            (totalRows + numRowsOf arrays) (batchCount + 1)
    else .err totalRows batchCount
  else .err totalRows batchCount
termination_by input.length
decreasing_by
  simp only [List.length_drop]
  omega

/-- `handle_client` (lines 47-124) over the delivered byte sequence
`input` of the client socket.  `ps` stands for the composition of
`json.loads` and the `columns` field access (lines 62 and 104): from
the schema frame's payload bytes to the list of column type tags, or
`none` where `json.loads`/the field access raises.  The strict UTF-8
decodes of lines 55 and 61 are explicit.  `fw` resolves the external
Flight calls.  All error paths funnel through the `except`/`finally`
of lines 115-124: no ack, best-effort close, socket closed. -/
def handleClient (ps : List Nat → Option (List String)) (fw : Fw) (input : List Nat) : Outcome :=
  match readFrame input with
  | none => ⟨false, false, 0, 0, 0, true⟩
  | some (qid, r1) =>
    if validUtf8 qid = false then ⟨false, false, 0, 0, 0, true⟩
    else
      match readFrame r1 with
      | none => ⟨false, false, 0, 0, 0, true⟩
      | some (sb, r2) =>
        if validUtf8 sb = false then ⟨false, false, 0, 0, 0, true⟩
        else
          match ps sb with
          | none => ⟨false, false, 0, 0, 0, true⟩
          | some cols =>
            if fw.openFails then ⟨false, false, 0, 0, 0, true⟩
            else
              match batchLoop fw cols r2 0 0 with
              | .err t c => ⟨false, true, 1, t, c, true⟩
              | .done t c _ =>
                if fw.closeFails then ⟨false, true, 2, t, c, true⟩
                else ⟨true, true, 2, t, c, true⟩

/-- A wire frame as the sender produces it: 4-byte big-endian length
prefix, then the payload (spec §3 "Wire Frame"). -/
def frame (w : List Nat) : List Nat := beBytes 4 w.length ++ w

/-- The sequence of batch payloads a session's stream carries up to the
zero-length sentinel, each decoded by `_parse_batch`; `none` when a
frame is short, a payload fails to decode, or the sentinel never
arrives.  This is the specification-side description of §4.5's
`StreamingBatches` phase, used to state what the loop accumulates. -/
def collectBatches (cols : List String) (input : List Nat) :
    Option (List (List (List Value)) × List Nat) :=
  if h4 : 4 ≤ input.length then
    if beNat (input.take 4) = 0 then some ([], input.drop 4)
    else if hlen : beNat (input.take 4) ≤ (input.drop 4).length then
      match parse_batch ((input.drop 4).take (beNat (input.take 4))) cols with
      | none => none
      | some arrays =>
        match collectBatches cols ((input.drop 4).drop (beNat (input.take 4))) with
        | none => none
        | some (bs, r) => some (arrays :: bs, r)
    else none
  else none
termination_by input.length
decreasing_by
  simp only [List.length_drop]
  omega

/-- §4.3 layout of one cell, from the spec's words: a 1-byte null
indicator (1 = absent, then nothing follows), else a 0 byte followed by
the type-specific bytes — 4-byte big-endian two's complement for
INTEGER, 8-byte for BIGINT, the 8 IEEE-754 bytes for DOUBLE, and a
2-byte big-endian length prefix plus the UTF-8 payload bytes for
VARCHAR. -/
def encodeCell (v : Value) : List Nat :=
  match v with
  | .null => [1]
  | .int32 n => 0 :: beBytes 4 (toUnsigned 32 n)
  | .int64 n => 0 :: beBytes 8 (toUnsigned 64 n)
  | .float64 bits => 0 :: beBytes 8 bits
  | .str bs => 0 :: (beBytes 2 bs.length ++ bs)

/-- §4.3 layout of one row: cells in schema order. -/
def encodeRow (r : List Value) : List Nat := (r.map encodeCell).flatten

/-- §4.3 layout of a batch: 4-byte big-endian row count, then the rows. -/
def encodeBatch (rows : List (List Value)) : List Nat :=
  beBytes 4 rows.length ++ (rows.map encodeRow).flatten

/-- A value fits a column type tag: the constructor matches the tag's
decoding branch and the value fits the wire width.  A `str` value fits
every tag outside the three fixed-width ones (the VARCHAR branch is
also the fallback for unknown tags). -/
def wfCell : String → Value → Bool
  | _, .null => true
  | ty, .int32 n => ty = "INTEGER" && decide (-(2 ^ 31) ≤ n) && decide (n < 2 ^ 31)
  | ty, .int64 n => ty = "BIGINT" && decide (-(2 ^ 63) ≤ n) && decide (n < 2 ^ 63)
  | ty, .float64 bits => ty = "DOUBLE" && decide (bits < 2 ^ 64)
  | ty, .str bs =>
    ty ≠ "INTEGER" && ty ≠ "BIGINT" && ty ≠ "DOUBLE" && decide (bs.length < 2 ^ 16)

/-- A row fits the schema: same length, each cell fits its column. -/
def wfRow : List String → List Value → Bool
  | [], [] => true
  | t :: ts, v :: vs => wfCell t v && wfRow ts vs
  | _, _ => false

/-! ## Byte-level helper lemmas -/

theorem beNat_foldl (a : Nat) (l : List Nat) :
    l.foldl (fun x b => x * 256 + b) a = a * 256 ^ l.length + beNat l := by
  induction l generalizing a with
  | nil => simp [beNat]
  | cons b l ih =>
    simp only [List.foldl_cons, List.length_cons, beNat]
    rw [ih (a * 256 + b), ih (0 * 256 + b)]
    ring

theorem beNat_append (xs ys : List Nat) :
    beNat (xs ++ ys) = beNat xs * 256 ^ ys.length + beNat ys := by
  unfold beNat
  rw [List.foldl_append, beNat_foldl]
  rfl

theorem beBytes_length (k n : Nat) : (beBytes k n).length = k := by
  induction k generalizing n with
  | zero => rfl
  | succ k ih => simp [beBytes, ih]

theorem beNat_beBytes (k n : Nat) (h : n < 256 ^ k) : beNat (beBytes k n) = n := by
  induction k generalizing n with
  | zero =>
    simp only [pow_zero, Nat.lt_one_iff] at h
    simp [beBytes, beNat, h]
  | succ k ih =>
    have hdiv : n / 256 < 256 ^ k := by
      rw [Nat.div_lt_iff_lt_mul (by norm_num)]
      calc n < 256 ^ (k + 1) := h
        _ = 256 ^ k * 256 := by ring
    rw [beBytes, beNat_append, ih (n / 256) hdiv]
    simp [beNat]
    omega

theorem toUnsigned_lt (w : Nat) (i : Int) : toUnsigned w i < 2 ^ w := by
  unfold toUnsigned
  have hpos : (0 : Int) < 2 ^ w := by positivity
  have hlt := Int.emod_lt_of_pos i hpos
  have hcast : ((2 ^ w : Nat) : Int) = (2 : Int) ^ w := by push_cast; ring
  omega

theorem toSigned_toUnsigned_32 (n : Int) (h1 : -(2 ^ 31) ≤ n) (h2 : n < 2 ^ 31) :
    toSigned 32 (toUnsigned 32 n) = n := by
  unfold toSigned toUnsigned
  norm_num at *
  split <;> omega

theorem toSigned_toUnsigned_64 (n : Int) (h1 : -(2 ^ 63) ≤ n) (h2 : n < 2 ^ 63) :
    toSigned 64 (toUnsigned 64 n) = n := by
  unfold toSigned toUnsigned
  norm_num at *
  split <;> omega

theorem getElem?_append_len (pre l : List Nat) : (pre ++ l)[pre.length]? = l[0]? := by
  rw [List.getElem?_append_right (le_refl pre.length), Nat.sub_self]

theorem drop_append_len (pre l : List Nat) : (pre ++ l).drop pre.length = l :=
  List.drop_left pre l

theorem drop_append_of_length (pre l : List Nat) (k : Nat) (h : pre.length = k) :
    (pre ++ l).drop k = l := by
  subst h
  exact List.drop_left pre l

theorem take_append_of_length (pre l : List Nat) (k : Nat) (h : pre.length = k) :
    (pre ++ l).take k = pre := by
  subst h
  exact List.take_left pre l

theorem drop_cons_len (pre : List Nat) (b : Nat) (l : List Nat) :
    (pre ++ b :: l).drop (pre.length + 1) = l := by
  have heq : pre ++ b :: l = (pre ++ [b]) ++ l := by simp
  have hlen : (pre ++ [b]).length = pre.length + 1 := by simp
  rw [heq, ← hlen, List.drop_left]

/-! ## Claims C3 and C5 -/

/-- C3: for every column position in every row of a batch payload, a
nonzero 1-byte null indicator makes the decoded value absent (null),
advances the offset by exactly one byte (no value bytes consumed), and
this holds for every type tag and regardless of the bytes that follow
the indicator. -/
theorem c3_null_indicator (data : List Nat) (offset : Nat) (ty : String) (b : Nat)
    (hb : data[offset]? = some b) (hnz : b ≠ 0) :
    parseCell data offset ty = some (.null, offset + 1) := by
  simp [parseCell, hb, hnz]

theorem c3_null_indicator_witness :
    parseCell [7, 200, 200, 200] 0 "INTEGER" = some (.null, 1) :=
  c3_null_indicator [7, 200, 200, 200] 0 "INTEGER" 7 (by decide) (by decide)

/-- C5: a schema column whose type tag is not exactly one of the
case-sensitive strings INTEGER, BIGINT, VARCHAR, DOUBLE is mapped to
the Arrow string type (the mapping is total, hence never raises), and
its values are decoded by exactly the VARCHAR branch of `_parse_batch`
(2-byte big-endian length prefix followed by that many payload bytes,
whose text decoding uses replacement and never fails). -/
theorem c5_unknown_tag_is_varchar (t : String) (h1 : t ≠ "INTEGER") (h2 : t ≠ "BIGINT")
    (h3 : t ≠ "VARCHAR") (h4 : t ≠ "DOUBLE") :
    mapTag t = .string ∧
      ∀ data offset, parseValue data offset t = parseValue data offset "VARCHAR" := by
  refine ⟨by simp [mapTag, h1, h2, h3, h4], fun data offset => ?_⟩
  simp [parseValue, h1, h2, h4]

theorem c5_unknown_tag_is_varchar_witness :
    mapTag "integer" = .string ∧
      parseValue [0, 2, 200, 201] 0 "integer" = parseValue [0, 2, 200, 201] 0 "VARCHAR" := by
  have h := c5_unknown_tag_is_varchar "integer" (by decide) (by decide) (by decide) (by decide)
  exact ⟨h.1, h.2 [0, 2, 200, 201] 0⟩

/-! ## Encoder/decoder round-trip (C2) -/

theorem parseCell_some_zero (data : List Nat) (offset : Nat) (ty : String)
    (h : data[offset]? = some 0) :
    parseCell data offset ty = parseValue data (offset + 1) ty := by
  simp [parseCell, h]

theorem drop_append_cons (pre : List Nat) (b : Nat) (mid l : List Nat) :
    (pre ++ b :: (mid ++ l)).drop (pre.length + 1 + mid.length) = l := by
  have heq : pre ++ b :: (mid ++ l) = (pre ++ b :: mid) ++ l := by simp
  have hlen : (pre ++ b :: mid).length = pre.length + 1 + mid.length := by
    simp
    omega
  rw [heq, ← hlen, List.drop_left]

theorem parseCell_enc (pre suf : List Nat) (ty : String) (v : Value)
    (hwf : wfCell ty v = true) :
    parseCell (pre ++ (encodeCell v ++ suf)) pre.length ty =
      some (v, (pre ++ encodeCell v).length) := by
  cases v with
  | null =>
    simp only [encodeCell, List.cons_append, List.nil_append]
    rw [parseCell, getElem?_append_len]
    simp
  | int32 n =>
    simp only [wfCell, Bool.and_eq_true, decide_eq_true_eq] at hwf
    obtain ⟨⟨hty, h1⟩, h2⟩ := hwf
    subst hty
    simp only [encodeCell, List.cons_append]
    rw [parseCell_some_zero _ _ _ (by rw [getElem?_append_len]; rfl)]
    rw [parseValue, if_pos rfl, drop_cons_len]
    rw [take_append_of_length _ _ 4 (beBytes_length 4 (toUnsigned 32 n))]
    rw [if_pos (beBytes_length 4 (toUnsigned 32 n))]
    have hlt : toUnsigned 32 n < 256 ^ 4 := by
      have := toUnsigned_lt 32 n
      norm_num at this ⊢
      omega
    rw [beNat_beBytes 4 _ hlt, toSigned_toUnsigned_32 n h1 h2]
    simp [beBytes_length]
  | int64 n =>
    simp only [wfCell, Bool.and_eq_true, decide_eq_true_eq] at hwf
    obtain ⟨⟨hty, h1⟩, h2⟩ := hwf
    subst hty
    simp only [encodeCell, List.cons_append]
    rw [parseCell_some_zero _ _ _ (by rw [getElem?_append_len]; rfl)]
    rw [parseValue, if_neg (by decide), if_pos rfl, drop_cons_len]
    rw [take_append_of_length _ _ 8 (beBytes_length 8 (toUnsigned 64 n))]
    rw [if_pos (beBytes_length 8 (toUnsigned 64 n))]
    have hlt : toUnsigned 64 n < 256 ^ 8 := by
      have := toUnsigned_lt 64 n
      norm_num at this ⊢
      omega
    rw [beNat_beBytes 8 _ hlt, toSigned_toUnsigned_64 n h1 h2]
    simp [beBytes_length]
  | float64 bits =>
    simp only [wfCell, Bool.and_eq_true, decide_eq_true_eq] at hwf
    obtain ⟨hty, h1⟩ := hwf
    subst hty
    simp only [encodeCell, List.cons_append]
    rw [parseCell_some_zero _ _ _ (by rw [getElem?_append_len]; rfl)]
    rw [parseValue, if_neg (by decide), if_neg (by decide), if_pos rfl, drop_cons_len]
    rw [take_append_of_length _ _ 8 (beBytes_length 8 bits)]
    rw [if_pos (beBytes_length 8 bits)]
    have hlt : bits < 256 ^ 8 := by norm_num; omega
    rw [beNat_beBytes 8 _ hlt]
    simp [beBytes_length]
  | str bs =>
    simp only [wfCell, Bool.and_eq_true, decide_eq_true_eq, ne_eq,
      Bool.not_eq_true', decide_eq_false_iff_not] at hwf
    obtain ⟨⟨⟨h1, h2⟩, h3⟩, h4⟩ := hwf
    simp only [encodeCell, List.cons_append, List.append_assoc]
    rw [parseCell_some_zero _ _ _ (by rw [getElem?_append_len]; rfl)]
    rw [parseValue, if_neg h1, if_neg h2, if_neg h3, drop_cons_len]
    rw [take_append_of_length _ _ 2 (beBytes_length 2 bs.length)]
    rw [if_pos (beBytes_length 2 bs.length)]
    have hlt : bs.length < 256 ^ 2 := by norm_num; omega
    rw [beNat_beBytes 2 _ hlt]
    have hdrop : (pre ++ 0 :: (beBytes 2 bs.length ++ (bs ++ suf))).drop (pre.length + 1 + 2) =
        bs ++ suf := by
      have h2len : pre.length + 1 + 2 = pre.length + 1 + (beBytes 2 bs.length).length := by
        rw [beBytes_length]
      rw [h2len, drop_append_cons pre 0 (beBytes 2 bs.length) (bs ++ suf)]
    rw [hdrop, take_append_of_length bs suf bs.length rfl]
    simp [beBytes_length]
    omega

theorem parseRow_enc (tys : List String) (r : List Value) (hwf : wfRow tys r = true) :
    ∀ pre suf, parseRow (pre ++ (encodeRow r ++ suf)) pre.length tys =
      some (r, (pre ++ encodeRow r).length) := by
  induction tys generalizing r with
  | nil =>
    cases r with
    | nil => intro pre suf; simp [parseRow, encodeRow]
    | cons v vs => exact absurd hwf (by simp [wfRow])
  | cons t ts ih =>
    cases r with
    | nil => exact absurd hwf (by simp [wfRow])
    | cons v vs =>
      simp only [wfRow, Bool.and_eq_true] at hwf
      obtain ⟨hc, hr⟩ := hwf
      intro pre suf
      have hc' := parseCell_enc pre (encodeRow vs ++ suf) t v hc
      have ih' := ih vs hr (pre ++ encodeCell v) suf
      have henc : encodeRow (v :: vs) = encodeCell v ++ encodeRow vs := by
        simp [encodeRow]
      rw [henc]
      simp only [List.append_assoc] at hc' ih' ⊢
      simp only [parseRow, hc', ih']

theorem parseRows_enc (tys : List String) (rows : List (List Value))
    (hwf : ∀ r ∈ rows, wfRow tys r = true) :
    ∀ pre suf, parseRows (pre ++ ((rows.map encodeRow).flatten ++ suf)) tys
        pre.length rows.length =
      some (rows, (pre ++ (rows.map encodeRow).flatten).length) := by
  induction rows with
  | nil => intro pre suf; simp [parseRows]
  | cons r rs ih =>
    intro pre suf
    have hr : wfRow tys r = true := hwf r (by simp)
    have hrs : ∀ x ∈ rs, wfRow tys x = true := fun x hx => hwf x (by simp [hx])
    have hrow := parseRow_enc tys r hr pre ((rs.map encodeRow).flatten ++ suf)
    have ih' := ih hrs (pre ++ encodeRow r) suf
    have hflat : ((r :: rs).map encodeRow).flatten =
        encodeRow r ++ (rs.map encodeRow).flatten := by simp
    rw [hflat]
    show parseRows _ tys pre.length (rs.length + 1) = _
    simp only [List.append_assoc] at hrow ih' ⊢
    simp only [parseRows, hrow, ih']

/-- C2: for every schema over the tags INTEGER, BIGINT, DOUBLE, VARCHAR
and every batch of fitting typed values with arbitrary null positions,
encoding with the §4.3 layout (4-byte big-endian row count; per row,
per column in schema order, a 1-byte null indicator then the
type-specific bytes) and feeding the bytes to `_parse_batch` reproduces
the original typed values exactly — the resulting column arrays are the
transposition of the original rows, with `null` at exactly the original
null positions. -/
theorem c2_roundtrip (tys : List String) (rows : List (List Value))
    (htys : ∀ t ∈ tys, t = "INTEGER" ∨ t = "BIGINT" ∨ t = "DOUBLE" ∨ t = "VARCHAR")
    (hwf : ∀ r ∈ rows, wfRow tys r = true)
    (hR : rows.length < 2 ^ 32) :
    parse_batch (encodeBatch rows) tys =
      some ((List.range tys.length).map fun j => rows.map fun r => r.getD j .null) := by
  have hlen4 : (beBytes 4 rows.length).length = 4 := beBytes_length 4 rows.length
  have htake : (encodeBatch rows).take 4 = beBytes 4 rows.length := by
    unfold encodeBatch
    exact take_append_of_length _ _ 4 hlen4
  have hbe : beNat (beBytes 4 rows.length) = rows.length := by
    apply beNat_beBytes
    norm_num
    omega
  rw [parse_batch, htake, if_pos hlen4, hbe]
  have hdata : encodeBatch rows =
      beBytes 4 rows.length ++ ((rows.map encodeRow).flatten ++ []) := by
    unfold encodeBatch
    simp
  have hrows := parseRows_enc tys rows hwf (beBytes 4 rows.length) []
  rw [hlen4] at hrows
  rw [hdata, hrows]

theorem c2_roundtrip_witness :
    parse_batch
        (encodeBatch [[.int32 1, .str [97]], [.null, .str [98]], [.int32 (-7), .null]])
        ["INTEGER", "VARCHAR"] =
      some [[.int32 1, .null, .int32 (-7)], [.str [97], .str [98], .null]] := by
  have h := c2_roundtrip ["INTEGER", "VARCHAR"]
    [[.int32 1, .str [97]], [.null, .str [98]], [.int32 (-7), .null]]
    (by decide) (by decide) (by decide)
  simpa using h

/-! ## Frame reader (C4) -/

theorem recv_exact_zero (stream : List (List Nat)) : recv_exact stream 0 = some ([], stream) := by
  rw [recv_exact.eq_def]
  simp

theorem recv_exact_nil (n : Nat) (hn : n ≠ 0) : recv_exact [] n = none := by
  rw [recv_exact]
  simp [hn]

theorem recv_exact_cons (c : List Nat) (cs : List (List Nat)) (n : Nat)
    (hn : n ≠ 0) (hc : c ≠ []) :
    recv_exact (c :: cs) n =
      match recv_exact (if c.drop n = [] then cs else c.drop n :: cs) (n - (c.take n).length) with
      | none => none
      | some (d, s) => some (c.take n ++ d, s) := by
  rw [recv_exact]
  simp [hn, hc]

/-- C4: the frame reader, run against any schedule of nonempty partial
deliveries (each `recv` call returning some prefix of what remains),
returns exactly the first `n` delivered bytes whenever at least `n`
bytes are delivered before the peer closes — looping over as many
partial reads as needed and consuming nothing beyond them — and fails
(`ConnectionError`) whenever the peer closes before `n` bytes are
delivered. -/
theorem c4_recv_exact_contract (n : Nat) : ∀ stream : List (List Nat),
    (∀ c ∈ stream, c ≠ []) →
    (n ≤ stream.flatten.length →
      ∃ rest, recv_exact stream n = some (stream.flatten.take n, rest) ∧
        rest.flatten = stream.flatten.drop n) ∧
    (stream.flatten.length < n → recv_exact stream n = none) := by
  induction n using Nat.strong_induction_on with
  | _ n ih =>
    intro stream hne
    by_cases hn0 : n = 0
    · subst hn0
      exact ⟨fun _ => ⟨stream, recv_exact_zero stream, by simp⟩, fun h => absurd h (by omega)⟩
    · match stream with
      | [] =>
        refine ⟨fun h => absurd h ?_, fun _ => recv_exact_nil n hn0⟩
        simp
        omega
      | c :: cs =>
        have hc : c ≠ [] := hne c (by simp)
        have hcs : ∀ x ∈ cs, x ≠ [] := fun x hx => hne x (by simp [hx])
        have hclen : 0 < c.length := List.length_pos.mpr hc
        rw [List.flatten_cons]
        by_cases hdrop : c.drop n = []
        · have hle : c.length ≤ n := List.drop_eq_nil_iff.mp hdrop
          have htc : c.take n = c := List.take_of_length_le hle
          have htlen : (c.take n).length = c.length := by rw [htc]
          have hrec := ih (n - c.length) (by omega) cs hcs
          constructor
          · intro h
            rw [List.length_append] at h
            obtain ⟨rest, hr1, hr2⟩ := hrec.1 (by omega)
            refine ⟨rest, ?_, ?_⟩
            · rw [recv_exact_cons c cs n hn0 hc, if_pos hdrop, htlen, hr1]
              rw [List.take_append_eq_append_take, htc]
            · rw [hr2, List.drop_append_eq_append_drop, hdrop, List.nil_append]
          · intro h
            rw [List.length_append] at h
            rw [recv_exact_cons c cs n hn0 hc, if_pos hdrop, htlen, hrec.2 (by omega)]
        · have hlt : n < c.length := by
            rcases Nat.lt_or_ge n c.length with h | h
            · exact h
            · exact absurd (List.drop_eq_nil_iff.mpr h) hdrop
          have htlen : (c.take n).length = n := by
            rw [List.length_take]
            omega
          constructor
          · intro h
            refine ⟨c.drop n :: cs, ?_, ?_⟩
            · rw [recv_exact_cons c cs n hn0 hc, if_neg hdrop, htlen, Nat.sub_self,
                recv_exact_zero]
              rw [List.take_append_eq_append_take]
              have : n - c.length = 0 := by omega
              rw [this, List.take_zero, List.append_nil]
              simp
            · rw [List.flatten_cons, List.drop_append_eq_append_drop]
              have : n - c.length = 0 := by omega
              rw [this, List.drop_zero]
          · intro h
            rw [List.length_append] at h
            omega

theorem c4_recv_exact_contract_witness :
    ((∀ c ∈ [[1, 2], [3, 4, 5]], c ≠ []) ∧
      ∃ rest, recv_exact [[1, 2], [3, 4, 5]] 4 = some ([1, 2, 3, 4], rest) ∧
        rest.flatten = [5]) ∧
    ((∀ c ∈ [[1, 2]], c ≠ []) ∧ recv_exact [[1, 2]] 4 = none) := by
  constructor
  · refine ⟨by decide, ?_⟩
    have h := (c4_recv_exact_contract 4 [[1, 2], [3, 4, 5]] (by decide)).1 (by decide)
    simpa using h
  · refine ⟨by decide, ?_⟩
    exact (c4_recv_exact_contract 4 [[1, 2]] (by decide)).2 (by decide)

/-! ## Decoder shape invariants (C6) -/

theorem parseRow_length (tys : List String) : ∀ data offset r o,
    parseRow data offset tys = some (r, o) → r.length = tys.length := by
  induction tys with
  | nil =>
    intro data offset r o h
    rw [parseRow] at h
    injection h with h
    injection h with h1 h2
    rw [← h1]
    rfl
  | cons t ts ih =>
    intro data offset r o h
    rw [parseRow] at h
    split at h
    · exact absurd h (by simp)
    · split at h
      · exact absurd h (by simp)
      · injection h with h
        injection h with h1 h2
        rw [← h1]
        simp only [List.length_cons]
        rw [ih _ _ _ _ (by assumption)]

theorem parseRows_shape (tys : List String) (data : List Nat) : ∀ n offset rows o,
    parseRows data tys offset n = some (rows, o) →
      rows.length = n ∧ ∀ r ∈ rows, r.length = tys.length := by
  intro n
  induction n with
  | zero =>
    intro offset rows o h
    rw [parseRows] at h
    injection h with h
    injection h with h1 h2
    rw [← h1]
    simp
  | succ n ih =>
    intro offset rows o h
    rw [parseRows] at h
    split at h
    · exact absurd h (by simp)
    · split at h
      · exact absurd h (by simp)
      · injection h with h
        injection h with h1 h2
        obtain ⟨hlen, hall⟩ := ih _ _ _ (by assumption)
        rw [← h1]
        refine ⟨by simp [hlen], ?_⟩
        intro x hx
        cases hx with
        | head => exact parseRow_length tys data offset _ _ (by assumption)
        | tail _ hx => exact hall x hx

/-- C6: whenever `_parse_batch` succeeds, the produced sequence of
column arrays has exactly one array per schema column in schema order
(array `j` holds the values decoded for column `j` of each row), every
decoded row carried exactly one value per schema column, and all
column arrays have length equal to the batch's decoded row count (the
4-byte big-endian count at the head of the payload) — the arrays are
parallel. -/
theorem c6_batch_shape (data : List Nat) (cols : List String)
    (arrays : List (List Value)) (h : parse_batch data cols = some arrays) :
    arrays.length = cols.length ∧
      (∀ a ∈ arrays, a.length = beNat (data.take 4)) ∧
      ∀ rows o, parseRows data cols 4 (beNat (data.take 4)) = some (rows, o) →
        (∀ r ∈ rows, r.length = cols.length) ∧
        ∀ j, j < cols.length → arrays[j]? = some (rows.map fun r => r.getD j .null) := by
  rw [parse_batch] at h
  split at h
  · split at h
    · exact absurd h (by simp)
    · rename_i rows' heq
      injection h with h
      obtain ⟨hlen, hall⟩ := parseRows_shape cols data _ _ _ _ heq
      refine ⟨by rw [← h]; simp, ?_, ?_⟩
      · intro a ha
        rw [← h] at ha
        simp only [List.mem_map, List.mem_range] at ha
        obtain ⟨j, _, ha⟩ := ha
        rw [← ha]
        simp [hlen]
      · intro rows o hro
        rw [heq] at hro
        injection hro with hro
        injection hro with h1 h2
        subst h1
        refine ⟨hall, ?_⟩
        intro j hj
        rw [← h]
        rw [List.getElem?_map, List.getElem?_range hj]
        rfl
  · exact absurd h (by simp)

theorem c6_batch_shape_witness :
    parse_batch [0, 0, 0, 2, 0, 0, 0, 0, 5, 1, 1, 0, 0, 2, 200, 201]
        ["INTEGER", "STRANGE"] =
      some [[.int32 5, .null], [.null, .str [200, 201]]] ∧
    [[Value.int32 5, Value.null], [Value.null, Value.str [200, 201]]].length = 2 ∧
    ∀ a ∈ [[Value.int32 5, Value.null], [Value.null, Value.str [200, 201]]],
      a.length = beNat [0, 0, 0, 2] := by
  refine ⟨by decide, ?_⟩
  have h := c6_batch_shape [0, 0, 0, 2, 0, 0, 0, 0, 5, 1, 1, 0, 0, 2, 200, 201]
    ["INTEGER", "STRANGE"] [[.int32 5, .null], [.null, .str [200, 201]]] (by decide)
  exact ⟨h.1, fun a ha => by rw [h.2.1 a ha]; decide⟩

/-! ## Session-level helper lemmas -/

theorem readFrame_frame (w rest : List Nat) (h : w.length < 2 ^ 32) :
    readFrame (frame w ++ rest) = some (w, rest) := by
  have hlen4 : (beBytes 4 w.length).length = 4 := beBytes_length 4 w.length
  have hassoc : frame w ++ rest = beBytes 4 w.length ++ (w ++ rest) := by
    simp [frame]
  rw [hassoc, readFrame]
  have htake : (beBytes 4 w.length ++ (w ++ rest)).take 4 = beBytes 4 w.length :=
    take_append_of_length _ _ 4 hlen4
  have hdrop : (beBytes 4 w.length ++ (w ++ rest)).drop 4 = w ++ rest :=
    drop_append_of_length _ _ 4 hlen4
  rw [htake, hdrop]
  have hbe : beNat (beBytes 4 w.length) = w.length := by
    apply beNat_beBytes
    norm_num
    omega
  rw [hbe]
  rw [if_pos (by simp [hlen4]), if_pos (by simp)]
  rw [take_append_of_length w rest w.length rfl, drop_append_len]

theorem batchLoop_sentinel (fw : Fw) (cols : List String) (rest : List Nat) (t c : Nat) :
    batchLoop fw cols ([0, 0, 0, 0] ++ rest) t c = .done t c rest := by
  rw [batchLoop.eq_def]
  simp [beNat]

theorem collectBatches_sentinel (cols : List String) (rest : List Nat) :
    collectBatches cols ([0, 0, 0, 0] ++ rest) = some ([], rest) := by
  rw [collectBatches.eq_def]
  simp [beNat]

theorem batchLoop_frame (fw : Fw) (cols : List String) (bd rest : List Nat) (t c : Nat)
    (hbd : bd ≠ []) (hlen : bd.length < 2 ^ 32) :
    batchLoop fw cols (frame bd ++ rest) t c =
      match parse_batch bd cols with
      | none => .err t c
      | some arrays =>
        if fw.writeFails c then .err t c
        else batchLoop fw cols rest (t + numRowsOf arrays) (c + 1) := by
  have hlen4 : (beBytes 4 bd.length).length = 4 := beBytes_length 4 bd.length
  have hassoc : frame bd ++ rest = beBytes 4 bd.length ++ (bd ++ rest) := by
    simp [frame]
  rw [hassoc, batchLoop.eq_def]
  have htake : (beBytes 4 bd.length ++ (bd ++ rest)).take 4 = beBytes 4 bd.length :=
    take_append_of_length _ _ 4 hlen4
  have hdrop : (beBytes 4 bd.length ++ (bd ++ rest)).drop 4 = bd ++ rest :=
    drop_append_of_length _ _ 4 hlen4
  have hbe : beNat (beBytes 4 bd.length) = bd.length := by
    apply beNat_beBytes
    norm_num
    omega
  have hbd0 : 0 < bd.length := List.length_pos.mpr hbd
  rw [dif_pos (by simp [hlen4])]
  rw [htake, hbe, hdrop]
  rw [if_neg (by omega)]
  rw [dif_pos (by simp)]
  rw [take_append_of_length bd rest bd.length rfl, drop_append_len]

theorem collectBatches_frame (cols : List String) (bd rest : List Nat)
    (hbd : bd ≠ []) (hlen : bd.length < 2 ^ 32) :
    collectBatches cols (frame bd ++ rest) =
      match parse_batch bd cols with
      | none => none
      | some arrays =>
        match collectBatches cols rest with
        | none => none
        | some (bs, r) => some (arrays :: bs, r) := by
  have hlen4 : (beBytes 4 bd.length).length = 4 := beBytes_length 4 bd.length
  have hassoc : frame bd ++ rest = beBytes 4 bd.length ++ (bd ++ rest) := by
    simp [frame]
  rw [hassoc, collectBatches.eq_def]
  have htake : (beBytes 4 bd.length ++ (bd ++ rest)).take 4 = beBytes 4 bd.length :=
    take_append_of_length _ _ 4 hlen4
  have hdrop : (beBytes 4 bd.length ++ (bd ++ rest)).drop 4 = bd ++ rest :=
    drop_append_of_length _ _ 4 hlen4
  have hbe : beNat (beBytes 4 bd.length) = bd.length := by
    apply beNat_beBytes
    norm_num
    omega
  have hbd0 : 0 < bd.length := List.length_pos.mpr hbd
  rw [dif_pos (by simp [hlen4])]
  rw [htake, hbe, hdrop]
  rw [if_neg (by omega)]
  rw [dif_pos (by simp)]
  rw [take_append_of_length bd rest bd.length rfl, drop_append_len]

theorem batchLoop_collect (fw : Fw) (cols : List String) :
    ∀ k (input : List Nat), input.length ≤ k → ∀ t c tot cnt rest,
      batchLoop fw cols input t c = .done tot cnt rest →
      ∃ bs, collectBatches cols input = some (bs, rest) ∧
        tot = t + (bs.map numRowsOf).sum ∧ cnt = c + bs.length := by
  intro k
  induction k with
  | zero =>
    intro input hk t c tot cnt rest h
    rw [batchLoop.eq_def, dif_neg (by omega)] at h
    exact absurd h (by simp)
  | succ k ih =>
    intro input hk t c tot cnt rest h
    rw [batchLoop.eq_def] at h
    by_cases h4 : 4 ≤ input.length
    case neg =>
      rw [dif_neg h4] at h
      exact absurd h (by simp)
    rw [dif_pos h4] at h
    by_cases hz : beNat (input.take 4) = 0
    · rw [if_pos hz] at h
      injection h with h1 h2 h3
      subst h1
      subst h2
      subst h3
      refine ⟨[], ?_, by simp, by simp⟩
      rw [collectBatches.eq_def, dif_pos h4, if_pos hz]
    · rw [if_neg hz] at h
      by_cases hlen : beNat (input.take 4) ≤ (input.drop 4).length
      case neg =>
        rw [dif_neg hlen] at h
        exact absurd h (by simp)
      rw [dif_pos hlen] at h
      cases hpb : parse_batch ((input.drop 4).take (beNat (input.take 4))) cols with
      | none =>
        rw [hpb] at h
        exact absurd h (by simp)
      | some arrays =>
        rw [hpb] at h
        simp only at h
        by_cases hw : fw.writeFails c
        · rw [if_pos hw] at h
          exact absurd h (by simp)
        · rw [if_neg hw] at h
          have hlt : ((input.drop 4).drop (beNat (input.take 4))).length ≤ k := by
            simp only [List.length_drop]
            omega
          obtain ⟨bs, hc1, hc2, hc3⟩ := ih _ hlt _ _ _ _ _ h
          refine ⟨arrays :: bs, ?_, ?_, ?_⟩
          · rw [collectBatches.eq_def, dif_pos h4, if_neg hz, dif_pos hlen, hpb]
            simp only [hc1]
          · simp only [List.map_cons, List.sum_cons]
            omega
          · simp only [List.length_cons]
            omega

/-! ## Claims C7 and C8 -/

/-- C7: a batch frame whose 4-byte length prefix is zero is the
end-of-stream sentinel — the batch loop stops there without touching
the following bytes; the client socket is closed on every path; a
session whose stream negotiates successfully and reaches the sentinel
with a successful close sends the acknowledgment (and only then); and
whenever the acknowledgment was sent, every stage had succeeded — on
any failure no acknowledgment is sent. -/
theorem c7_sentinel_and_ack (ps : List Nat → Option (List String)) (fw : Fw) :
    (∀ cols rest t c, batchLoop fw cols ([0, 0, 0, 0] ++ rest) t c = .done t c rest) ∧
    (∀ input, (handleClient ps fw input).socketClosed = true) ∧
    (∀ qid sb r2 cols t c rest,
      qid.length < 2 ^ 32 → sb.length < 2 ^ 32 →
      validUtf8 qid = true → validUtf8 sb = true → ps sb = some cols →
      fw.openFails = false → batchLoop fw cols r2 0 0 = .done t c rest →
      fw.closeFails = false →
      handleClient ps fw (frame qid ++ (frame sb ++ r2)) = ⟨true, true, 2, t, c, true⟩) ∧
    (∀ input, (handleClient ps fw input).ack = true →
      ∃ qid r1 sb r2 cols t c rest,
        readFrame input = some (qid, r1) ∧ validUtf8 qid = true ∧
        readFrame r1 = some (sb, r2) ∧ validUtf8 sb = true ∧
        ps sb = some cols ∧ fw.openFails = false ∧
        batchLoop fw cols r2 0 0 = .done t c rest ∧ fw.closeFails = false) := by
  refine ⟨fun cols rest t c => batchLoop_sentinel fw cols rest t c, ?_, ?_, ?_⟩
  · intro input
    rw [handleClient.eq_def]
    repeat' split
    all_goals rfl
  · intro qid sb r2 cols t c rest hq32 hs32 hvq hvs hps hopen hloop hclose
    simp only [handleClient, readFrame_frame qid (frame sb ++ r2) hq32, hvq,
      readFrame_frame sb r2 hs32, hvs, hps, hopen, hloop, hclose]
    simp
  · intro input hack
    rw [handleClient.eq_def] at hack
    split at hack
    · exact absurd hack (by simp)
    · rename_i qid r1 hrf
      split at hack
      · exact absurd hack (by simp)
      · rename_i hvq
        split at hack
        · exact absurd hack (by simp)
        · rename_i sb r2 hrf2
          split at hack
          · exact absurd hack (by simp)
          · rename_i hvs
            split at hack
            · exact absurd hack (by simp)
            · rename_i cols hps
              split at hack
              · exact absurd hack (by simp)
              · rename_i hopen
                split at hack
                · exact absurd hack (by simp)
                · rename_i t c rest hloop
                  split at hack
                  · exact absurd hack (by simp)
                  · rename_i hclose
                    refine ⟨qid, r1, sb, r2, cols, t, c, rest, hrf, ?_, hrf2, ?_, hps,
                      ?_, hloop, ?_⟩
                    · simpa using hvq
                    · simpa using hvs
                    · simpa using hopen
                    · simpa using hclose

/-- C8: a session's accumulated row total (and batch count), as logged
on success, equals the sum of the per-batch decoded row counts of the
batches its stream carried: if the batch loop completes from zero
totals, the stream decomposes into decoded batches `bs` and the final
totals are `(bs.map numRowsOf).sum` and `bs.length`; those totals are
exactly what the success outcome of `handle_client` reports. -/
theorem c8_total_rows (fw : Fw) (cols : List String) (input : List Nat)
    (tot cnt : Nat) (rest : List Nat)
    (h : batchLoop fw cols input 0 0 = .done tot cnt rest) :
    (∃ bs, collectBatches cols input = some (bs, rest) ∧
      tot = (bs.map numRowsOf).sum ∧ cnt = bs.length) ∧
    (∀ ps qid sb, qid.length < 2 ^ 32 → sb.length < 2 ^ 32 →
      validUtf8 qid = true → validUtf8 sb = true → ps sb = some cols →
      fw.openFails = false → fw.closeFails = false →
      (handleClient ps fw (frame qid ++ (frame sb ++ input))).totalRows = tot ∧
      (handleClient ps fw (frame qid ++ (frame sb ++ input))).batchCount = cnt) := by
  constructor
  · obtain ⟨bs, h1, h2, h3⟩ :=
      batchLoop_collect fw cols input.length input (le_refl _) 0 0 tot cnt rest h
    exact ⟨bs, h1, by omega, by omega⟩
  · intro ps qid sb hq32 hs32 hvq hvs hps hopen hclose
    simp only [handleClient, readFrame_frame qid (frame sb ++ input) hq32, hvq,
      readFrame_frame sb input hs32, hvs, hps, hopen, h, hclose]
    simp

theorem c7_sentinel_and_ack_witness :
    handleClient (fun _ => some ["INTEGER"]) ⟨false, fun _ => false, false⟩
        (frame [81] ++ (frame [123] ++ [0, 0, 0, 0])) = ⟨true, true, 2, 0, 0, true⟩ :=
  (c7_sentinel_and_ack (fun _ => some ["INTEGER"]) ⟨false, fun _ => false, false⟩).2.2.1
    [81] [123] [0, 0, 0, 0] ["INTEGER"] 0 0 []
    (by decide) (by decide) (by decide) (by decide) rfl rfl
    (by simpa using batchLoop_sentinel ⟨false, fun _ => false, false⟩ ["INTEGER"] [] 0 0) rfl

theorem c8_total_rows_witness :
    ∃ bs, collectBatches ["INTEGER"]
        (frame [0, 0, 0, 1, 0, 0, 0, 0, 5] ++ (frame [0, 0, 0, 2, 1, 1] ++ [0, 0, 0, 0])) =
        some (bs, []) ∧ 3 = (bs.map numRowsOf).sum ∧ 2 = bs.length := by
  have hp1 : parse_batch [0, 0, 0, 1, 0, 0, 0, 0, 5] ["INTEGER"] = some [[.int32 5]] := by
    decide
  have hp2 : parse_batch [0, 0, 0, 2, 1, 1] ["INTEGER"] = some [[.null, .null]] := by decide
  have h : batchLoop ⟨false, fun _ => false, false⟩ ["INTEGER"]
      (frame [0, 0, 0, 1, 0, 0, 0, 0, 5] ++ (frame [0, 0, 0, 2, 1, 1] ++ [0, 0, 0, 0])) 0 0 =
      .done 3 2 [] := by
    rw [batchLoop_frame _ _ _ _ _ _ (by decide) (by decide)]
    simp only [hp1, numRowsOf]
    norm_num
    rw [batchLoop_frame _ _ _ _ _ _ (by decide) (by decide)]
    simp only [hp2, numRowsOf]
    norm_num
    simpa using batchLoop_sentinel ⟨false, fun _ => false, false⟩ ["INTEGER"] [] 3 2
  exact (c8_total_rows ⟨false, fun _ => false, false⟩ ["INTEGER"] _ 3 2 [] h).1

/-! ## Concrete session computations (shared by several claims) -/

theorem handleClient_ok_example :
    handleClient (fun _ => some ["INTEGER"]) ⟨false, fun _ => false, false⟩
      (frame [81] ++ (frame [123] ++ [0, 0, 0, 0])) = ⟨true, true, 2, 0, 0, true⟩ := by
  have hloop : batchLoop ⟨false, fun _ => false, false⟩ ["INTEGER"] [0, 0, 0, 0] 0 0 =
      .done 0 0 [] := by
    simpa using batchLoop_sentinel ⟨false, fun _ => false, false⟩ ["INTEGER"] [] 0 0
  simp only [handleClient, readFrame_frame [81] (frame [123] ++ [0, 0, 0, 0]) (by decide),
    readFrame_frame [123] [0, 0, 0, 0] (by decide),
    show validUtf8 [81] = true from by decide, show validUtf8 [123] = true from by decide,
    hloop]
  simp

/-! ## Claim C1: truncated payloads -/

/-- C1 counterexample: a batch payload that declares a VARCHAR byte
length (5) exceeding the remaining payload bytes (2) does NOT fail —
`_parse_batch` silently truncates the value to the available bytes
(Python slicing clamps), and a session carrying exactly that batch
completes and sends the acknowledgment, contradicting the claim that
such payloads fail with BatchDecodeError and the session fails with no
ack. -/
theorem c1_counterexample :
    parse_batch [0, 0, 0, 1, 0, 0, 5, 97, 98] ["VARCHAR"] = some [[.str [97, 98]]] ∧
    handleClient (fun _ => some ["VARCHAR"]) ⟨false, fun _ => false, false⟩
        (frame [81] ++ (frame [123] ++
          (frame [0, 0, 0, 1, 0, 0, 5, 97, 98] ++ [0, 0, 0, 0]))) =
      ⟨true, true, 2, 1, 1, true⟩ := by
  refine ⟨by decide, ?_⟩
  have hpb : parse_batch [0, 0, 0, 1, 0, 0, 5, 97, 98] ["VARCHAR"] =
      some [[.str [97, 98]]] := by decide
  have hloop : batchLoop ⟨false, fun _ => false, false⟩ ["VARCHAR"]
      (frame [0, 0, 0, 1, 0, 0, 5, 97, 98] ++ [0, 0, 0, 0]) 0 0 = .done 1 1 [] := by
    rw [batchLoop_frame _ _ _ _ _ _ (by decide) (by decide)]
    simp only [hpb, numRowsOf]
    norm_num
    simpa using batchLoop_sentinel ⟨false, fun _ => false, false⟩ ["VARCHAR"] [] 1 1
  simp only [handleClient,
    readFrame_frame [81] _ (by decide), readFrame_frame [123] _ (by decide),
    show validUtf8 [81] = true from by decide, show validUtf8 [123] = true from by decide,
    hloop]
  simp

/-- C1 (amended): decoding fails exactly where `struct.unpack` or
byte indexing meets too few bytes — a payload shorter than 4 bytes of
row count, a missing null indicator, fewer than 4/8/8 bytes for an
INTEGER/BIGINT/DOUBLE value, or fewer than 2 bytes of VARCHAR length
prefix; a declared VARCHAR byte length exceeding the remaining bytes
is by itself NOT an error (the value is silently truncated); whenever
a batch fails to decode, the batch loop errs, and the session then
fails: the writer (if open) is closed, no acknowledgment is sent, and
the socket is closed. -/
theorem c1_truncation_amended :
    (∀ data cols, data.length < 4 → parse_batch data cols = none) ∧
    (∀ (data : List Nat) offset ty, data.length ≤ offset → parseCell data offset ty = none) ∧
    (∀ data offset, (data.drop offset).length < 4 → parseValue data offset "INTEGER" = none) ∧
    (∀ data offset, (data.drop offset).length < 8 →
      parseValue data offset "BIGINT" = none ∧ parseValue data offset "DOUBLE" = none) ∧
    (∀ data offset ty, ty ≠ "INTEGER" → ty ≠ "BIGINT" → ty ≠ "DOUBLE" →
      (data.drop offset).length < 2 → parseValue data offset ty = none) ∧
    (∀ fw cols bd rest t c, bd ≠ [] → bd.length < 2 ^ 32 → parse_batch bd cols = none →
      batchLoop fw cols (frame bd ++ rest) t c = .err t c) ∧
    (∀ ps fw qid sb r2 cols t c,
      qid.length < 2 ^ 32 → sb.length < 2 ^ 32 →
      validUtf8 qid = true → validUtf8 sb = true → ps sb = some cols →
      fw.openFails = false → batchLoop fw cols r2 0 0 = .err t c →
      handleClient ps fw (frame qid ++ (frame sb ++ r2)) = ⟨false, true, 1, t, c, true⟩) := by
  refine ⟨?_, ?_, ?_, ?_, ?_, ?_, ?_⟩
  · intro data cols h
    rw [parse_batch, if_neg]
    simp only [List.length_take]
    omega
  · intro data offset ty h
    simp [parseCell, List.getElem?_eq_none h]
  · intro data offset h
    rw [parseValue, if_pos rfl, if_neg]
    simp only [List.length_take]
    omega
  · intro data offset h
    constructor
    · rw [parseValue, if_neg (by decide), if_pos rfl, if_neg]
      simp only [List.length_take]
      omega
    · rw [parseValue, if_neg (by decide), if_neg (by decide), if_pos rfl, if_neg]
      simp only [List.length_take]
      omega
  · intro data offset ty h1 h2 h3 h
    rw [parseValue, if_neg h1, if_neg h2, if_neg h3, if_neg]
    simp only [List.length_take]
    omega
  · intro fw cols bd rest t c hbd hlen hpb
    rw [batchLoop_frame fw cols bd rest t c hbd hlen]
    simp only [hpb]
  · intro ps fw qid sb r2 cols t c hq32 hs32 hvq hvs hps hopen hloop
    simp only [handleClient, readFrame_frame qid (frame sb ++ r2) hq32, hvq,
      readFrame_frame sb r2 hs32, hvs, hps, hopen, hloop]
    simp

theorem c1_truncation_amended_witness :
    parse_batch [0, 0, 1] ["INTEGER"] = none ∧
    parseCell [0, 0, 0, 1] 4 "INTEGER" = none ∧
    parseValue [0, 9, 9] 0 "INTEGER" = none ∧
    batchLoop ⟨false, fun _ => false, false⟩ ["INTEGER"] (frame [9] ++ []) 0 0 = .err 0 0 := by
  refine ⟨c1_truncation_amended.1 [0, 0, 1] ["INTEGER"] (by decide),
    c1_truncation_amended.2.1 [0, 0, 0, 1] 4 "INTEGER" (by decide),
    c1_truncation_amended.2.2.1 [0, 9, 9] 0 (by decide),
    c1_truncation_amended.2.2.2.2.2.1 ⟨false, fun _ => false, false⟩ ["INTEGER"] [9] [] 0 0
      (by decide) (by decide) (by decide)⟩

/-! ## Claim C9: forwarder close discipline -/

/-- C9 counterexample: on a successful session the writer's `close` is
invoked twice — once at line 111 and once more in the `finally` block
(lines 118-120), whose redundant call is swallowed — so the stream is
not closed exactly once on the success path. -/
theorem c9_counterexample :
    (handleClient (fun _ => some ["INTEGER"]) ⟨false, fun _ => false, false⟩
        (frame [81] ++ (frame [123] ++ [0, 0, 0, 0]))).ack = true ∧
    (handleClient (fun _ => some ["INTEGER"]) ⟨false, fun _ => false, false⟩
        (frame [81] ++ (frame [123] ++ [0, 0, 0, 0]))).closeAttempts = 2 := by
  rw [handleClient_ok_example]
  exact ⟨rfl, rfl⟩

/-- C9 (amended): in every session the writer is closed at least once
and at most twice once it has been opened (never before), the second
invocation — always present on the path that completes the batch loop,
because the `finally` block closes again after line 111 — being
tolerated as a no-op; when the acknowledgment is sent the close count
is exactly two. -/
theorem c9_close_amended (ps : List Nat → Option (List String)) (fw : Fw)
    (input : List Nat) :
    ((handleClient ps fw input).opened = false →
      (handleClient ps fw input).closeAttempts = 0) ∧
    ((handleClient ps fw input).opened = true →
      1 ≤ (handleClient ps fw input).closeAttempts ∧
        (handleClient ps fw input).closeAttempts ≤ 2) ∧
    ((handleClient ps fw input).ack = true →
      (handleClient ps fw input).closeAttempts = 2) := by
  rw [handleClient.eq_def]
  repeat' split
  all_goals exact ⟨fun h => by simp_all, fun h => by simp_all, fun h => by simp_all⟩

theorem c9_close_amended_witness :
    (handleClient (fun _ => some ["INTEGER"]) ⟨false, fun _ => false, false⟩
        (frame [81] ++ (frame [123] ++ [0, 0, 0, 0]))).closeAttempts = 2 :=
  (c9_close_amended (fun _ => some ["INTEGER"]) ⟨false, fun _ => false, false⟩
      (frame [81] ++ (frame [123] ++ [0, 0, 0, 0]))).2.2
    (by rw [handleClient_ok_example])

/-! ## Claim C10: strict UTF-8 at the public interface -/

/-- C10 counterexample: the query-id frame is not the only place where
malformed UTF-8 terminates the session — the schema frame is decoded
strictly as well (line 61).  With a schema parser that accepts any
bytes, a session whose schema frame payload is the invalid byte 0xFF
fails with no acknowledgment and no forwarder stream, while the same
session with a valid schema byte succeeds. -/
theorem c10_counterexample :
    handleClient (fun _ => some []) ⟨false, fun _ => false, false⟩
        (frame [81] ++ (frame [255] ++ [0, 0, 0, 0])) = ⟨false, false, 0, 0, 0, true⟩ ∧
    handleClient (fun _ => some []) ⟨false, fun _ => false, false⟩
        (frame [81] ++ (frame [123] ++ [0, 0, 0, 0])) = ⟨true, true, 2, 0, 0, true⟩ := by
  constructor
  · simp only [handleClient, readFrame_frame [81] (frame [255] ++ [0, 0, 0, 0]) (by decide),
      readFrame_frame [255] [0, 0, 0, 0] (by decide),
      show validUtf8 [81] = true from by decide, show validUtf8 [255] = false from by decide]
    simp
  · have hloop : batchLoop ⟨false, fun _ => false, false⟩ [] [0, 0, 0, 0] 0 0 =
        .done 0 0 [] := by
      simpa using batchLoop_sentinel ⟨false, fun _ => false, false⟩ [] [] 0 0
    simp only [handleClient, readFrame_frame [81] (frame [123] ++ [0, 0, 0, 0]) (by decide),
      readFrame_frame [123] [0, 0, 0, 0] (by decide),
      show validUtf8 [81] = true from by decide, show validUtf8 [123] = true from by decide,
      hloop]
    simp

/-- C10 (amended): malformed UTF-8 in the query-id frame raises and
fails the session before anything is opened — no acknowledgment, socket
closed; the schema frame is decoded with the same strict UTF-8, so
query-id and schema frames are exactly the two public-interface places
where malformed UTF-8 terminates the session; VARCHAR column values,
by contrast, are decoded with replacement: their content bytes can
never make `_parse_batch` fail once the 2-byte length prefix is
present. -/
theorem c10_utf8_amended :
    (∀ ps fw qid rest, qid.length < 2 ^ 32 → validUtf8 qid = false →
      handleClient ps fw (frame qid ++ rest) = ⟨false, false, 0, 0, 0, true⟩) ∧
    (∀ ps fw qid sb rest, qid.length < 2 ^ 32 → sb.length < 2 ^ 32 →
      validUtf8 qid = true → validUtf8 sb = false →
      handleClient ps fw (frame qid ++ (frame sb ++ rest)) = ⟨false, false, 0, 0, 0, true⟩) ∧
    (∀ data offset ty, ty ≠ "INTEGER" → ty ≠ "BIGINT" → ty ≠ "DOUBLE" →
      2 ≤ (data.drop offset).length → ∃ v o, parseValue data offset ty = some (v, o)) := by
  refine ⟨?_, ?_, ?_⟩
  · intro ps fw qid rest hq32 hvq
    simp only [handleClient, readFrame_frame qid rest hq32, hvq]
    simp
  · intro ps fw qid sb rest hq32 hs32 hvq hvs
    simp only [handleClient, readFrame_frame qid (frame sb ++ rest) hq32, hvq,
      readFrame_frame sb rest hs32, hvs]
    simp
  · intro data offset ty h1 h2 h3 h
    refine ⟨.str ((data.drop (offset + 2)).take (beNat ((data.drop offset).take 2))),
      offset + 2 + beNat ((data.drop offset).take 2), ?_⟩
    rw [parseValue, if_neg h1, if_neg h2, if_neg h3, if_pos]
    simp only [List.length_take]
    omega

theorem c10_utf8_amended_witness :
    handleClient (fun _ => some []) ⟨false, fun _ => false, false⟩
        (frame [255] ++ []) = ⟨false, false, 0, 0, 0, true⟩ ∧
    ∃ v o, parseValue [0, 3, 255, 254] 0 "VARCHAR" = some (v, o) :=
  ⟨c10_utf8_amended.1 (fun _ => some []) ⟨false, fun _ => false, false⟩ [255] []
      (by decide) (by decide),
    c10_utf8_amended.2.2 [0, 3, 255, 254] 0 "VARCHAR" (by decide) (by decide) (by decide)
      (by decide)⟩

end ArrowBridge
